import Mathlib

/-!
Verification of the clio-whisper transcript pipeline.

This file shallowly embeds the transcript-aggregation core of the
`clio_api_server` package (models/transcript.py, services/transcript_aggregator.py,
services/pipeline.py, services/whisperlive_client.py) and proves or refutes the
stated properties of that code.

Modelling conventions:
* Python strings are `List Char`; `str.strip`, `str.split`, `str.lower`,
  substring / startswith / endswith tests are reimplemented faithfully below.
* Python floats (timestamps, segment times, confidences) are fixed-point
  integers `ℤ`: `datetime` values and segment times count milliseconds,
  confidences count thousandths, so `commit_delay_seconds = 2.0` becomes
  `2000` and `min_english_confidence = 0.8` becomes `800`.  Every constant
  the code and the claims use is exactly representable this way, and the
  float comparisons map to the corresponding exact integer comparisons
  (the one derived quantity, the word-overlap ratio, is compared by exact
  cross multiplication, see `selectNew` and `similar_iff_ratio`).  Only the
  reconnect backoff keeps rational arithmetic (`reconnect_delay`).
* The 16-hex-character SHA-256 text hash is modelled by the hashed string
  itself (the lowercased normalized text), i.e. hashing is assumed injective.
* Python dicts keyed by strings are association lists with unique keys.
-/

namespace ClioWhisper

/-- Whitespace as recognised by Python's `str.strip` / `str.split`
(restricted to the ASCII whitespace characters that can occur here). -/
def isWhite (c : Char) : Bool :=
  c = ' ' || c = '\t' || c = '\n' || c = '\r'

/-- `s.strip()` with only leading whitespace removed. -/
def dropLead (l : List Char) : List Char := l.dropWhile isWhite

/-- `s.rstrip()`: trailing whitespace removed. -/
def dropTrail (l : List Char) : List Char := (l.reverse.dropWhile isWhite).reverse

/-- Python `s.strip()`. -/
def pyStrip (l : List Char) : List Char := dropTrail (dropLead l)

/-- Python `s.lower()`. -/
def pyLower (l : List Char) : List Char := l.map Char.toLower

/-- Helper for `pySplit`: the Bool records whether the previous character was
whitespace (used by `collapseWS`). -/
def collapseGo : Bool → List Char → List Char
  | _, [] => []
  | prevW, c :: rest =>
    if isWhite c then
      if prevW then collapseGo true rest
      else ' ' :: collapseGo true rest
    else c :: collapseGo false rest

/-- `re.sub(r"\s+", " ", s)`: collapse every whitespace run to one space. -/
def collapseWS (l : List Char) : List Char := collapseGo false l

/-- The punctuation class of `re.sub(r" ([.,!?;:])", r"\1", s)`. -/
def isPunct (c : Char) : Bool :=
  c = '.' || c = ',' || c = '!' || c = '?' || c = ';' || c = ':'

/-- `re.sub(r" ([.,!?;:])", r"\1", s)`: drop a space directly before punctuation. -/
def fixPunct : List Char → List Char
  | ' ' :: c :: rest => if isPunct c then c :: fixPunct rest else ' ' :: fixPunct (c :: rest)
  | c :: rest => c :: fixPunct rest
  | [] => []

/-- `TranscriptSegment.normalized_text` / `TranscriptAggregator._normalize_text`:
strip, collapse internal whitespace, remove the space before `.,!?;:`. -/
def normalize_text (t : List Char) : List Char := fixPunct (collapseWS (pyStrip t))

/-- Python `str.split()` (no separator): split on whitespace runs, no empties.
The accumulator holds the current word reversed. -/
def pySplitGo : List Char → List Char → List (List Char)
  | [], cur => if cur = [] then [] else [cur.reverse]
  | c :: rest, cur =>
    if isWhite c then
      if cur = [] then pySplitGo rest [] else cur.reverse :: pySplitGo rest []
    else pySplitGo rest (c :: cur)

def pySplit (l : List Char) : List (List Char) := pySplitGo l []

/-- Python `" ".join(words)`. -/
def joinSpace : List (List Char) → List Char
  | [] => []
  | [w] => w
  | w :: ws => w ++ ' ' :: joinSpace ws

/-- Python `needle in hay` on strings (substring containment). -/
def isSubOf (needle : List Char) : List Char → Bool
  | [] => needle.isEmpty
  | c :: t => needle.isPrefixOf (c :: t) || isSubOf needle t

/-- Python `s.endswith(" ")`. -/
def endsWithSpace (l : List Char) : Bool := l.getLast? = some ' '

/-- Python `words[-n:]` for `n ≥ 1`. -/
def lastN (n : Nat) (l : List α) : List α := l.drop (l.length - n)

/-- The `SegmentStatus` enum of models/transcript.py. -/
inductive SegmentStatus where
  | PARTIAL
  | FINAL
  | COMMITTED
  deriving DecidableEq, Repr

/-- The numeric position of a status along the PARTIAL → FINAL → COMMITTED path. -/
def statusRank : SegmentStatus → Nat
  | .PARTIAL => 0
  | .FINAL => 1
  | .COMMITTED => 2

/-- `TranscriptSegment` of models/transcript.py.  `datetime` fields are
rational seconds; the optional `text_hash` is the modelled hash (see header). -/
structure Segment where
  segment_id : String
  start_time : ℤ
  end_time : ℤ
  text : List Char
  status : SegmentStatus
  confidence : Option ℤ
  revision : Nat
  source_client_uid : Option String
  created_at : ℤ
  updated_at : ℤ
  language : Option (List Char)
  is_english : Bool
  text_hash : Option (List Char)
  deriving DecidableEq, Repr

/-- `TranscriptSegment.normalized_text`. -/
def Segment.normalizedText (s : Segment) : List Char := normalize_text s.text

/-- `TranscriptSegment.compute_hash`: sha256 of the lowercased normalized text,
modelled by that string itself. -/
def Segment.computeHash (s : Segment) : List Char := pyLower (normalize_text s.text)

/-- `TranscriptSegment.with_updated_text`: copy with new text, recomputed hash,
revision + 1, optional status override, `created_at` preserved. -/
def with_updated_text (s : Segment) (text : List Char) (status : Option SegmentStatus)
    (now : ℤ) : Segment :=
  { s with
    text := text
    text_hash := some (pyLower (normalize_text text))
    status := status.getD s.status
    revision := s.revision + 1
    updated_at := now }

/-- `ConsolidatedTranscript` of models/transcript.py.  `committed_hashes` is the
key set of the private `_committed_hashes` dict (its datetime values play no
role); `last_update` is omitted (display only). -/
structure Consolidated where
  text : List Char
  revision : Nat
  segment_count : Nat
  committed_hashes : List (List Char)
  deriving DecidableEq, Repr

/-- A fresh `ConsolidatedTranscript()`. -/
def Consolidated.init : Consolidated :=
  { text := [], revision := 0, segment_count := 0, committed_hashes := [] }

/-- `ConsolidatedTranscript._get_non_overlapping_suffix`, inner word loop:
the largest `i` (searched downward from `words_new.length`) such that the last
`i` words of `words_new` equal the last `i` words of `words_current`
(`""` standing in when `words_current` is shorter than `i`); `0` if none. -/
def findOverlap (wc wn : List (List Char)) : Nat → Nat
  | 0 => 0
  | i + 1 =>
    let sNew := joinSpace (lastN (i + 1) wn)
    let sCur := if i + 1 ≤ wc.length then joinSpace (lastN (i + 1) wc) else []
    if sNew = sCur then i + 1 else findOverlap wc wn i

/-- `ConsolidatedTranscript._get_non_overlapping_suffix`. -/
def get_non_overlapping_suffix (new_text current_text : List Char) : List Char :=
  if current_text = [] then pyStrip new_text
  else
    let cur := pyStrip (pyLower current_text)
    let nrm := pyStrip (pyLower new_text)
    if cur.isPrefixOf nrm then []
    else if nrm.isSuffixOf cur then []
    else
      let wc := pySplit cur
      let wn := pySplit nrm
      let k := findOverlap wc wn wn.length
      if k > 0 then pyStrip (joinSpace (wn.drop k)) else pyStrip new_text

/-- `if seg.text_hash and seg.text_hash in self._committed_hashes` —
Python truthiness: a `None` or empty hash never matches. -/
def hashInLedger (h : Option (List Char)) (ledger : List (List Char)) : Prop :=
  ∃ v, h = some v ∧ v ≠ [] ∧ v ∈ ledger

instance (h : Option (List Char)) (ledger : List (List Char)) :
    Decidable (hashInLedger h ledger) := by
  unfold hashInLedger
  exact inferInstance

/-- `self._committed_hashes[seg.text_hash] = now` guarded by
`if seg.text_hash:` — only truthy hashes are recorded; dict keys stay unique. -/
def addHash (ledger : List (List Char)) (h : Option (List Char)) : List (List Char) :=
  match h with
  | none => ledger
  | some v => if v = [] then ledger else if v ∈ ledger then ledger else ledger ++ [v]

/-- First selection pass of `ConsolidatedTranscript.update_from_segments`
(the loop populating `new_segments`): given the consolidated `text` (which this
pass never changes), scan the sorted committed segments, updating the hash
ledger, and keep those that survive the duplicate / substring / similarity
filters. -/
def selectNew (text : List Char) :
    List Segment → List (List Char) → List Segment × List (List Char)
  | [], ledger => ([], ledger)
  | seg :: rest, ledger =>
    let normalized := seg.normalizedText
    if normalized = [] then selectNew text rest ledger
    else if hashInLedger seg.text_hash ledger then selectNew text rest ledger
    else
      let cur := pyStrip (pyLower text)
      let nrm := pyStrip (pyLower normalized)
      let curW := (pySplit cur).dedup
      let newW := (pySplit nrm).dedup
      let inter := newW.filter (fun w => w ∈ curW)
      if cur = nrm ∨ (nrm ≠ [] ∧ isSubOf nrm cur = true) ∨
          (0 < newW.length ∧ 4 * newW.length < 5 * inter.length) then
        selectNew text rest (addHash ledger seg.text_hash)
      else
        let r := selectNew text rest (addHash ledger seg.text_hash)
        (seg :: r.1, r.2)

/-- Second pass of `update_from_segments` (the append loop): fold the selected
segments over the evolving consolidated text. -/
def appendNew : List Char → List Segment → List Char
  | text, [] => text
  | text, seg :: rest =>
    let normalized := seg.normalizedText
    if normalized = [] then appendNew text rest
    else
      let suffix := get_non_overlapping_suffix normalized text
      if suffix = [] then appendNew text rest
      else
        let t1 := if text ≠ [] ∧ endsWithSpace text = false then text ++ [' '] else text
        appendNew (t1 ++ suffix) rest

/-- Python string comparison (lexicographic by code point), as a
kernel-computable function on the underlying character lists. -/
def strLTb : List Char → List Char → Bool
  | [], [] => false
  | [], _ :: _ => true
  | _ :: _, [] => false
  | a :: as, b :: bs =>
    if a.val < b.val then true
    else if b.val < a.val then false
    else strLTb as bs

/-- The sort key comparison of `sorted(committed, key=lambda x:
(x.start_time, x.segment_id))`: lexicographic on the pair. -/
def segLE (a b : Segment) : Bool :=
  decide (a.start_time < b.start_time) ||
    (decide (a.start_time = b.start_time) &&
      !strLTb b.segment_id.data a.segment_id.data)

/-- Stable insertion of `x` after every already-placed element `y` with
`y ≤ x`; folding this from the left is a stable sort, hence produces exactly
the output of Python's (stable) `sorted`. -/
def insertSeg (x : Segment) : List Segment → List Segment
  | [] => [x]
  | y :: ys => if segLE y x then y :: insertSeg x ys else x :: y :: ys

def sortSegs (l : List Segment) : List Segment :=
  l.foldl (fun acc x => insertSeg x acc) []

/-- `ConsolidatedTranscript.update_from_segments`.  Note that the hash-ledger
mutations of the selection pass persist even when `new_segments` ends up empty,
and that `revision` is incremented whenever `new_segments` is non-empty —
whether or not any suffix was actually appended. -/
def update_from_segments (c : Consolidated) (segments : List Segment) : Consolidated :=
  let committed := segments.filter (fun s => s.status = SegmentStatus.COMMITTED)
  if committed = [] then c
  else
    let sorted := sortSegs committed
    let r := selectNew c.text sorted c.committed_hashes
    if r.1 = [] then { c with committed_hashes := r.2 }
    else
      { text := pyStrip (appendNew c.text r.1)
        revision := c.revision + 1
        segment_count := committed.length
        committed_hashes := r.2 }

/-- The aggregator-relevant configuration (core/config.py `AggregationConfig`
and `EnglishConfig`), with the code's defaults. -/
structure Settings where
  commit_delay_seconds : ℤ
  max_unconsolidated_segments : Nat
  max_questions : Nat
  enforce_english : Bool
  min_english_confidence : ℤ
  deriving Repr

def defaultSettings : Settings :=
  { commit_delay_seconds := 2000
    max_unconsolidated_segments := 1000
    max_questions := 500
    enforce_english := true
    min_english_confidence := 800 }

/-- The `EventType` enum of models/events.py. -/
inductive EventType where
  | PARTIAL
  | FINAL
  | STATUS
  | SYSTEM
  | ERROR
  | LANGUAGE_DETECTED
  | SERVER_READY
  | WAIT
  | DISCONNECT
  deriving DecidableEq, Repr

/-- `StreamingEvent`, with the fields `_handle_segment_event` reads. -/
structure StreamingEvent where
  event_type : EventType
  segment_id : Option String
  text : Option (List Char)
  start_time : Option ℤ
  end_time : Option ℤ
  language : Option (List Char)
  language_prob : Option ℤ
  client_uid : Option String
  deriving DecidableEq, Repr

/-- Dict read: `d.get(k)` on a string-keyed dict. -/
def lookupKey : List (String × α) → String → Option α
  | [], _ => none
  | (k, v) :: rest, sid => if k = sid then some v else lookupKey rest sid

/-- Dict write: `d[k] = v` (replace the key if present, else append). -/
def updMap : List (String × α) → String → α → List (String × α)
  | [], k, v => [(k, v)]
  | (k2, v2) :: rest, k, v =>
    if k2 = k then (k, v) :: rest else (k2, v2) :: updMap rest k v

/-- Dict delete: `d.pop(k, None)`. -/
def delKey (m : List (String × α)) (k : String) : List (String × α) :=
  m.filter (fun p => p.1 ≠ k)

/-- Python `x or y` on optional floats (`None` and `0.0` are both falsy). -/
def pyOrInt (o : Option ℤ) (d : ℤ) : ℤ :=
  match o with
  | some v => if v = 0 then d else v
  | none => d

/-- `TranscriptAggregator._is_english`. -/
def is_english_of (cfg : Settings) (language : Option (List Char))
    (confidence : Option ℤ) : Bool :=
  if cfg.enforce_english = false then true
  else
    match language with
    | none => true
    | some lang =>
      let isEng : Bool := pyLower lang = "en".data ∨ pyLower lang = "english".data
      match confidence with
      | some c => if isEng = false ∧ cfg.min_english_confidence ≤ c then false else true
      | none => true

/-- `TranscriptAggregator._should_commit_segment`: returns the decision and the
updated `_commit_timestamps` dict.  The timestamp is (re)recorded exactly when
the call returns true — including on the very first call for an id. -/
def should_commit_segment (delay : ℤ) (m : List (String × ℤ)) (sid : String)
    (status : SegmentStatus) (now : ℤ) : Bool × List (String × ℤ) :=
  if status ≠ SegmentStatus.FINAL then (false, m)
  else
    match lookupKey m sid with
    | some t0 => if now - t0 < delay then (false, m) else (true, updMap m sid now)
    | none => (true, updMap m sid now)

/-- `UnconsolidatedTranscript._find_segment`. -/
def find_segment : List Segment → String → Option Segment
  | [], _ => none
  | s :: rest, sid => if s.segment_id = sid then some s else find_segment rest sid

/-- `UnconsolidatedTranscript.update_segment`: replace the first segment with
the same id if the new revision is strictly greater. -/
def updateSegmentList : List Segment → Segment → List Segment
  | [], _ => []
  | s :: rest, ns =>
    if s.segment_id = ns.segment_id then
      if ns.revision > s.revision then ns :: rest else s :: rest
    else s :: updateSegmentList rest ns

/-- `UnconsolidatedTranscript.commit_segment`: turn the first FINAL segment
with this id into COMMITTED (filling in a missing hash). -/
def commitSegmentList (now : ℤ) : List Segment → String → List Segment
  | [], _ => []
  | s :: rest, sid =>
    if s.segment_id = sid ∧ s.status = SegmentStatus.FINAL then
      { s with
        status := SegmentStatus.COMMITTED
        updated_at := now
        text_hash := some (s.text_hash.getD s.computeHash) } :: rest
    else s :: commitSegmentList now rest sid

/-- The in-place `existing.status = COMMITTED; existing.updated_at = now` of
`_handle_segment_event`'s identical-text branch (first matching id). -/
def setCommitted (now : ℤ) : List Segment → String → List Segment
  | [], _ => []
  | s :: rest, sid =>
    if s.segment_id = sid then
      { s with status := SegmentStatus.COMMITTED, updated_at := now } :: rest
    else s :: setCommitted now rest sid

/-- `min(self.unconsolidated.segments, key=lambda s: s.created_at)`:
the first segment attaining the minimal `created_at` (Python's `min` keeps
the earliest of equals). -/
def minCreated : List Segment → Option Segment
  | [] => none
  | s :: rest =>
    match minCreated rest with
    | none => some s
    | some m => if s.created_at ≤ m.created_at then some s else some m

/-- `self.unconsolidated.segments.remove(oldest)`: drop the first segment
whose `created_at` equals the minimum. -/
def removeFirstMin (m : ℤ) : List Segment → List Segment
  | [] => []
  | s :: rest => if s.created_at = m then rest else s :: removeFirstMin m rest

/-- The aggregator state tracked by this embedding: the unconsolidated
segment list, the consolidated transcript, `_commit_timestamps` and
`_segment_text_cache`.  (The question map never feeds back into these.) -/
structure AggState where
  segments : List Segment
  consolidated : Consolidated
  commitTimestamps : List (String × ℤ)
  textCache : List (String × List Char)
  deriving DecidableEq, Repr

def AggState.init : AggState :=
  { segments := [], consolidated := Consolidated.init
    commitTimestamps := [], textCache := [] }

/-- One iteration step of `_enforce_limits`' while-loop, run on fuel; the fuel
is set (in `enforceLimits`) to the list length, which always suffices since
every iteration removes one segment. -/
def enforceFuel (maxSegs : Nat) :
    Nat → List Segment × List (String × List Char) × List (String × ℤ) →
      List Segment × List (String × List Char) × List (String × ℤ)
  | 0, st => st
  | fuel + 1, (segs, cache, ts) =>
    if segs.length ≤ maxSegs then (segs, cache, ts)
    else
      match minCreated segs with
      | none => (segs, cache, ts)
      | some oldest =>
        enforceFuel maxSegs fuel
          (removeFirstMin oldest.created_at segs,
           delKey cache oldest.segment_id,
           delKey ts oldest.segment_id)

/-- `TranscriptAggregator._enforce_limits`: evict the segment with the
smallest `created_at` (dropping its cache and timestamp entries) until the
window bound holds. -/
def enforceLimits (maxSegs : Nat) (segs : List Segment)
    (cache : List (String × List Char)) (ts : List (String × ℤ)) :
    List Segment × List (String × List Char) × List (String × ℤ) :=
  enforceFuel maxSegs segs.length (segs, cache, ts)

/-- The common tail of `_handle_segment_event` (everything after
`_enforce_limits`): the final-event commit attempt and consolidation. -/
def handleSegmentTail (cfg : Settings) (st : AggState) (sid : String)
    (isFinal : Bool) (now : ℤ) : AggState :=
  if isFinal then
    let r := should_commit_segment cfg.commit_delay_seconds st.commitTimestamps
      sid SegmentStatus.FINAL now
    if r.1 then
      let segs1 := commitSegmentList now st.segments sid
      { st with
        segments := segs1
        consolidated := update_from_segments st.consolidated segs1
        commitTimestamps := r.2 }
    else { st with commitTimestamps := r.2 }
  else st

/-- `TranscriptAggregator._handle_segment_event` at wall-clock time `now`. -/
def handle_segment_event (cfg : Settings) (st : AggState) (e : StreamingEvent)
    (now : ℤ) : AggState :=
  match e.segment_id with
  | none => st
  | some sid =>
    let text := (e.text.getD [])
    let ntext := normalize_text text
    let isFinal : Bool := decide (e.event_type = EventType.FINAL)
    let isEng := is_english_of cfg e.language e.language_prob
    let currentText := (lookupKey st.textCache sid).getD []
    match find_segment st.segments sid with
    | some ex =>
      if ntext = currentText then
        if isFinal = true ∧ ex.status ≠ SegmentStatus.COMMITTED then
          let r := should_commit_segment cfg.commit_delay_seconds st.commitTimestamps
            sid SegmentStatus.FINAL now
          if r.1 then
            let segs1 := setCommitted now st.segments sid
            { st with
              segments := segs1
              consolidated := update_from_segments st.consolidated segs1
              commitTimestamps := r.2 }
          else { st with commitTimestamps := r.2 }
        else st
      else
        let cache1 := updMap st.textCache sid ntext
        let ns0 := with_updated_text ex ntext
          (some (if isFinal = true then SegmentStatus.FINAL else SegmentStatus.PARTIAL)) now
        let ns := { ns0 with
          is_english := isEng
          language := e.language
          start_time := pyOrInt e.start_time ex.start_time
          end_time := pyOrInt e.end_time ex.end_time }
        let segs1 := updateSegmentList st.segments ns
        let r2 := enforceLimits cfg.max_unconsolidated_segments segs1 cache1
          st.commitTimestamps
        handleSegmentTail cfg
          { st with segments := r2.1, textCache := r2.2.1, commitTimestamps := r2.2.2 }
          sid isFinal now
    | none =>
      let seg : Segment :=
        { segment_id := sid
          start_time := pyOrInt e.start_time 0
          end_time := pyOrInt e.end_time 0
          text := ntext
          status := if isFinal = true then SegmentStatus.FINAL else SegmentStatus.PARTIAL
          confidence := none
          revision := 1
          source_client_uid := e.client_uid
          created_at := now
          updated_at := now
          language := e.language
          is_english := isEng
          text_hash := some (pyLower (normalize_text ntext)) }
      let cache1 := updMap st.textCache sid ntext
      let segs1 := st.segments ++ [seg]
      let r2 := enforceLimits cfg.max_unconsolidated_segments segs1 cache1
        st.commitTimestamps
      handleSegmentTail cfg
        { st with segments := r2.1, textCache := r2.2.1, commitTimestamps := r2.2.2 }
        sid isFinal now

/-- The `explicit_markers` list of `Question._detect_question_type`. -/
def explicitMarkers : List (List Char) :=
  ["?".data, "what".data, "how".data, "why".data, "when".data, "where".data,
   "who".data, "which".data, "whose".data]

/-- The `implicit_markers` list of `Question._detect_question_type`. -/
def implicitMarkers : List (List Char) :=
  ["imagine".data, "describe".data, "show me".data, "tell me".data, "present".data,
   "explain".data, "what if".data, "let\x27s say".data, "suppose".data, "consider".data]

/-- `Question._detect_question_type`: the explicit-marker loop tests plain
substring containment (`marker in text_lower`) and wins over the
startswith-based implicit-marker loop. -/
def detect_question_type (text : List Char) : Option (List Char) :=
  let tl := pyStrip (pyLower text)
  if explicitMarkers.any (fun m => isSubOf m tl) then some "interrogative".data
  else if implicitMarkers.any (fun m => m.isPrefixOf tl) then some "imperative".data
  else none

/-- The question words named by the specification. -/
def questionWords : List (List Char) :=
  ["what".data, "how".data, "why".data, "when".data, "where".data,
   "who".data, "which".data, "whose".data]

/-- Modelled from the spec (for comparison with `detect_question_type`):
"`is_interrogative` iff it contains `?` or contains any word from
{what, how, why, when, where, who, which, whose}" — read, as the claim does,
with whole-word containment. -/
def spec_is_interrogative (t : List Char) : Bool :=
  t.contains '?' || (pySplit (pyLower t)).any (fun w => decide (w ∈ questionWords))

/-- The `PipelineState` enum of models/control.py. -/
inductive PipelineState where
  | STOPPED
  | STARTING
  | RUNNING
  | DEGRADED
  | STOPPING
  | ERROR
  deriving DecidableEq, Repr

/-- The admission guard and first transition of `Pipeline.start`
(services/pipeline.py): any state other than STOPPED is rejected
(`return False`); from STOPPED the pipeline moves to STARTING. -/
def pipeline_start_transition (s : PipelineState) : Option PipelineState :=
  if s ≠ PipelineState.STOPPED then none else some PipelineState.STARTING

/-- `WhisperLiveClient._base_reconnect_delay`. -/
def base_reconnect_delay : ℚ := 1

/-- `WhisperLiveClient._max_reconnect_attempts`. -/
def max_reconnect_attempts : Nat := 10

/-- The sleep computed by `WhisperLiveClient.reconnect` for attempt `n`
(the value of `_reconnect_attempts` after the increment) with jitter draw `u`
from `random.uniform(0.8, 1.2)`:
`delay = base * 2**(n-1); jitter = delay * u; min(delay + jitter, 30)`. -/
def reconnect_delay (n : Nat) (u : ℚ) : ℚ :=
  let delay := base_reconnect_delay * 2 ^ (n - 1)
  let jitter := delay * u
  min (delay + jitter) 30

/-! ### Concrete instances used by counterexamples and witnesses -/

/-- A committed segment with given id, text and start time (hash filled in the
way `commit_segment` leaves it). -/
def mkCommitted (id : String) (t : String) (start : ℤ) : Segment :=
  { segment_id := id
    start_time := start
    end_time := start + 1
    text := t.data
    status := SegmentStatus.COMMITTED
    confidence := none
    revision := 1
    source_client_uid := none
    created_at := 0
    updated_at := 0
    language := none
    is_english := true
    text_hash := some (pyLower (normalize_text t.data)) }

/-- A consolidated transcript holding `t` with an empty ledger. -/
def mkConsolidated (t : String) (rev : Nat) : Consolidated :=
  { text := t.data, revision := rev, segment_count := 0, committed_hashes := [] }

/-- A PARTIAL/FINAL segment event with given id, text and times. -/
def mkEvent (tp : EventType) (id : String) (t : String) (start fin : ℤ) : StreamingEvent :=
  { event_type := tp
    segment_id := some id
    text := some t.data
    start_time := some start
    end_time := some fin
    language := none
    language_prob := none
    client_uid := none }

def c4_before : Consolidated := mkConsolidated "the quick brown fox" 0

def c4_segment : Segment := mkCommitted "s1" "brown fox jumps over" 0

def c3_before : Consolidated := mkConsolidated "hello world" 5

def c3_segment : Segment := mkCommitted "s1" "hello world extra" 0

def c3_witness_segment : Segment := mkCommitted "w1" "hello" 0

def c1_event : StreamingEvent := mkEvent EventType.FINAL "9" "hello there" 0 1

def c2_event_final : StreamingEvent := mkEvent EventType.FINAL "1" "alpha beta" 0 1

def c2_event_partial : StreamingEvent := mkEvent EventType.PARTIAL "1" "gamma delta" 0 1

/-- The state after the first FINAL for id 1 (which the code commits at once). -/
def c2_state1 : AggState :=
  handle_segment_event defaultSettings AggState.init c2_event_final 0

/-- The state after a different-text PARTIAL arrives for the committed id 1. -/
def c2_state2 : AggState :=
  handle_segment_event defaultSettings c2_state1 c2_event_partial 1

/-- A one-committed-segment aggregator state used as a witness input. -/
def c2_witness_state : AggState :=
  { segments := [mkCommitted "1" "alpha" 0]
    consolidated := Consolidated.init
    commitTimestamps := [("1", 0)]
    textCache := [("1", "alpha".data)] }

def c2_witness_event : StreamingEvent := mkEvent EventType.FINAL "1" "alpha" 0 1

def c9_event : StreamingEvent := mkEvent EventType.PARTIAL "w" "hi there" 0 1

def c5_before : Consolidated := mkConsolidated "we started here" 3

def c5_segment : Segment := mkCommitted "c5" "and then some more words" 0

def c10_event : StreamingEvent :=
  { event_type := EventType.PARTIAL
    segment_id := some "f"
    text := some "bonjour tout le monde".data
    start_time := some 0
    end_time := some 1
    language := some "fr".data
    language_prob := none
    client_uid := none }

end ClioWhisper

namespace ClioWhisper

/-! ### Theorems for the claims -/

/-! ### Supporting lemmas about the aggregator operations -/

theorem should_commit_segment_first (delay : ℤ) (m : List (String × ℤ)) (sid : String)
    (now : ℤ) (h : lookupKey m sid = none) :
    should_commit_segment delay m sid SegmentStatus.FINAL now = (true, updMap m sid now) := by
  unfold should_commit_segment
  rw [if_neg (fun hc => hc rfl), h]

theorem should_commit_segment_again (delay : ℤ) (m : List (String × ℤ)) (sid : String)
    (now t0 : ℤ) (h : lookupKey m sid = some t0) :
    (should_commit_segment delay m sid SegmentStatus.FINAL now).1 = true ↔
      delay ≤ now - t0 := by
  unfold should_commit_segment
  rw [if_neg (fun hc => hc rfl), h]
  dsimp only
  by_cases hlt : now - t0 < delay
  · rw [if_pos hlt]
    constructor
    · intro hc
      exact absurd hc (by simp)
    · intro hle
      omega
  · rw [if_neg hlt]
    constructor
    · intro _
      omega
    · intro _
      rfl

/-! ### Supporting lemmas about stripping and appending text -/

theorem head_dropWhile_white (l : List Char) :
    ∀ c, (l.dropWhile isWhite).head? = some c → isWhite c = false := by
  induction l with
  | nil => simp
  | cons a t ih =>
    intro c hc
    rw [List.dropWhile_cons] at hc
    by_cases ha : isWhite a = true
    · rw [if_pos ha] at hc
      exact ih c hc
    · rw [if_neg ha] at hc
      cases hc
      exact Bool.not_eq_true _ ▸ ha

theorem dropLead_eq_self (l : List Char)
    (h : ∀ c, l.head? = some c → isWhite c = false) : dropLead l = l := by
  cases l with
  | nil => rfl
  | cons a t =>
    unfold dropLead
    rw [List.dropWhile_cons, if_neg (by simp [h a rfl])]

theorem head_of_pre (y x : List Char) (h : y <+: x) (c : Char)
    (hc : y.head? = some c) : x.head? = some c := by
  obtain ⟨t, rfl⟩ := h
  cases y with
  | nil => cases hc
  | cons b ys =>
    cases hc
    rfl

theorem head_append_left (a b : List Char) (ha : a ≠ []) :
    (a ++ b).head? = a.head? := by
  cases a with
  | nil => exact absurd rfl ha
  | cons x xs => rfl

theorem dropTrail_isPrefix (x : List Char) : dropTrail x <+: x := by
  obtain ⟨pre, hp⟩ := List.dropWhile_suffix (l := x.reverse) isWhite
  refine ⟨pre.reverse, ?_⟩
  unfold dropTrail
  calc (x.reverse.dropWhile isWhite).reverse ++ pre.reverse
      = (pre ++ x.reverse.dropWhile isWhite).reverse := by rw [List.reverse_append]
    _ = x := by rw [hp, List.reverse_reverse]

theorem stripped_dropLead (l : List Char) (h : pyStrip l = l) : dropLead l = l := by
  have e1 : dropLead l <:+ l := List.dropWhile_suffix isWhite
  have e2 : dropTrail (dropLead l) <+: dropLead l := dropTrail_isPrefix (dropLead l)
  have hlen : l.length ≤ (dropLead l).length := by
    have := e2.length_le
    rw [show dropTrail (dropLead l) = l from h] at this
    exact this
  exact e1.eq_of_length (Nat.le_antisymm e1.length_le hlen)

theorem stripped_head (l : List Char) (h : pyStrip l = l) :
    ∀ c, l.head? = some c → isWhite c = false := by
  intro c hc
  rw [← stripped_dropLead l h] at hc
  exact head_dropWhile_white l c hc

theorem stripped_last (l : List Char) (h : pyStrip l = l) :
    ∀ c, l.reverse.head? = some c → isWhite c = false := by
  intro c hc
  have hdl := stripped_dropLead l h
  have h2 : dropTrail l = l := by
    unfold pyStrip at h
    rw [hdl] at h
    exact h
  have h3 : l.reverse.dropWhile isWhite = l.reverse := by
    have := congrArg List.reverse h2
    rwa [dropTrail, List.reverse_reverse] at this
  rw [← h3] at hc
  exact head_dropWhile_white l.reverse c hc

theorem stripped_of_heads (l : List Char)
    (h1 : ∀ c, l.head? = some c → isWhite c = false)
    (h2 : ∀ c, l.reverse.head? = some c → isWhite c = false) : pyStrip l = l := by
  unfold pyStrip
  rw [dropLead_eq_self l h1]
  unfold dropTrail
  have h3 := dropLead_eq_self l.reverse h2
  unfold dropLead at h3
  rw [h3, List.reverse_reverse]

theorem pyStrip_head (l : List Char) :
    ∀ c, (pyStrip l).head? = some c → isWhite c = false := by
  intro c hc
  have hpre : dropTrail (dropLead l) <+: dropLead l := dropTrail_isPrefix _
  exact head_dropWhile_white l c (head_of_pre _ _ hpre c hc)

theorem pyStrip_last (l : List Char) :
    ∀ c, (pyStrip l).reverse.head? = some c → isWhite c = false := by
  intro c hc
  have : (pyStrip l).reverse = (dropLead l).reverse.dropWhile isWhite := by
    unfold pyStrip dropTrail
    rw [List.reverse_reverse]
  rw [this] at hc
  exact head_dropWhile_white (dropLead l).reverse c hc

theorem pyStrip_idem (l : List Char) : pyStrip (pyStrip l) = pyStrip l :=
  stripped_of_heads _ (pyStrip_head l) (pyStrip_last l)

theorem gnos_stripped (a b : List Char) :
    pyStrip (get_non_overlapping_suffix a b) = get_non_overlapping_suffix a b := by
  unfold get_non_overlapping_suffix
  by_cases h1 : b = []
  · rw [if_pos h1]
    exact pyStrip_idem a
  · rw [if_neg h1]
    by_cases h2 : (pyStrip (pyLower b)).isPrefixOf (pyStrip (pyLower a)) = true
    · rw [if_pos h2]
      rfl
    · rw [if_neg h2]
      by_cases h3 : (pyStrip (pyLower a)).isSuffixOf (pyStrip (pyLower b)) = true
      · rw [if_pos h3]
        rfl
      · rw [if_neg h3]
        dsimp only
        by_cases h4 : 0 < findOverlap (pySplit (pyStrip (pyLower b)))
            (pySplit (pyStrip (pyLower a))) (pySplit (pyStrip (pyLower a))).length
        · rw [if_pos h4]
          exact pyStrip_idem _
        · rw [if_neg h4]
          exact pyStrip_idem a

theorem stripped_not_endsWithSpace (t : List Char) (ht : pyStrip t = t) :
    endsWithSpace t = false := by
  by_cases hq : t.getLast? = some ' '
  · exfalso
    have hrev : t.reverse.head? = some ' ' := by
      rw [List.head?_reverse]
      exact hq
    have := stripped_last t ht ' ' hrev
    simp [isWhite] at this
  · simp [endsWithSpace, hq]

theorem stripped_append_sep (t s : List Char) (ht : pyStrip t = t)
    (hs : pyStrip s = s) (ht0 : t ≠ []) (hs0 : s ≠ []) :
    pyStrip (t ++ ' ' :: s) = t ++ ' ' :: s := by
  apply stripped_of_heads
  · intro c hc
    rw [head_append_left t (' ' :: s) ht0] at hc
    exact stripped_head t ht c hc
  · intro c hc
    rw [show (t ++ ' ' :: s).reverse = s.reverse ++ (' ' :: t.reverse) from by simp] at hc
    rw [head_append_left s.reverse _ (by simpa using hs0)] at hc
    exact stripped_last s hs c hc

/-- Each iteration of the `update_from_segments` append loop only extends the
text at the end and preserves strippedness. -/
theorem appendNew_extends (segs : List Segment) : ∀ t : List Char,
    pyStrip t = t →
    t <+: appendNew t segs ∧ pyStrip (appendNew t segs) = appendNew t segs := by
  induction segs with
  | nil =>
    intro t ht
    exact ⟨List.prefix_refl t, ht⟩
  | cons seg rest ih =>
    intro t ht
    simp only [appendNew]
    by_cases h1 : seg.normalizedText = []
    · rw [if_pos h1]
      exact ih t ht
    · rw [if_neg h1]
      by_cases h2 : get_non_overlapping_suffix seg.normalizedText t = []
      · rw [if_pos h2]
        exact ih t ht
      · rw [if_neg h2]
        have hss : pyStrip (get_non_overlapping_suffix seg.normalizedText t) =
            get_non_overlapping_suffix seg.normalizedText t :=
          gnos_stripped seg.normalizedText t
        by_cases ht0 : t = []
        · rw [if_neg (by simp [ht0])]
          subst ht0
          obtain ⟨hp, hstr⟩ := ih _ hss
          exact ⟨List.nil_prefix, by simpa using hstr⟩
        · have hsep : endsWithSpace t = false := stripped_not_endsWithSpace t ht
          rw [if_pos ⟨ht0, hsep⟩]
          have heq : (t ++ [' ']) ++ get_non_overlapping_suffix seg.normalizedText t =
              t ++ ' ' :: get_non_overlapping_suffix seg.normalizedText t := by
            simp
          rw [heq]
          have hstr2 : pyStrip (t ++ ' ' :: get_non_overlapping_suffix seg.normalizedText t)
              = t ++ ' ' :: get_non_overlapping_suffix seg.normalizedText t :=
            stripped_append_sep t _ ht hss ht0 h2
          obtain ⟨hp, hstr⟩ := ih _ hstr2
          refine ⟨?_, hstr⟩
          exact (List.prefix_append t _).trans hp

/-! ### Supporting lemmas about the aggregator operations -/

theorem find_segment_eq_none_iff (segs : List Segment) (sid : String) :
    find_segment segs sid = none ↔ ∀ s ∈ segs, s.segment_id ≠ sid := by
  induction segs with
  | nil => simp [find_segment]
  | cons s rest ih =>
    by_cases h : s.segment_id = sid
    · simp [find_segment, h]
    · simp [find_segment, h, ih]

theorem enforceLimits_of_le (maxSegs : Nat) (segs : List Segment)
    (cache : List (String × List Char)) (ts : List (String × ℤ))
    (h : segs.length ≤ maxSegs) :
    enforceLimits maxSegs segs cache ts = (segs, cache, ts) := by
  unfold enforceLimits
  cases hl : segs.length with
  | zero => rfl
  | succ n =>
    show enforceFuel maxSegs (n + 1) (segs, cache, ts) = (segs, cache, ts)
    rw [enforceFuel]
    rw [if_pos (hl ▸ h)]

theorem commitSegmentList_append (now : ℤ) (pre : List Segment) (x : Segment)
    (sid : String) (hpre : ∀ s ∈ pre, s.segment_id ≠ sid)
    (hx : x.segment_id = sid) (hst : x.status = SegmentStatus.FINAL) :
    commitSegmentList now (pre ++ [x]) sid =
      pre ++ [{ x with
        status := SegmentStatus.COMMITTED
        updated_at := now
        text_hash := some (x.text_hash.getD x.computeHash) }] := by
  induction pre with
  | nil =>
    simp only [List.nil_append, commitSegmentList]
    rw [if_pos ⟨hx, hst⟩]
  | cons s rest ih =>
    have hs : s.segment_id ≠ sid := hpre s (by simp)
    simp only [List.cons_append, commitSegmentList]
    rw [if_neg (by simp [hs])]
    simp only [List.append_eq]
    rw [ih (fun a ha => hpre a (by simp [ha]))]

theorem find_segment_append_last (pre : List Segment) (x : Segment) (sid : String)
    (hpre : ∀ s ∈ pre, s.segment_id ≠ sid) (hx : x.segment_id = sid) :
    find_segment (pre ++ [x]) sid = some x := by
  induction pre with
  | nil => simp [find_segment, hx]
  | cons s rest ih =>
    have hs : s.segment_id ≠ sid := hpre s (by simp)
    simp only [List.cons_append, find_segment]
    rw [if_neg hs]
    simp only [List.append_eq]
    exact ih (fun a ha => hpre a (by simp [ha]))

theorem setCommitted_find (now : ℤ) (segs : List Segment) (sid : String)
    (ex : Segment) (h : find_segment segs sid = some ex) :
    find_segment (setCommitted now segs sid) sid =
      some { ex with status := SegmentStatus.COMMITTED, updated_at := now } := by
  induction segs with
  | nil => simp [find_segment] at h
  | cons s rest ih =>
    by_cases hs : s.segment_id = sid
    · rw [find_segment, if_pos hs] at h
      cases h
      simp only [setCommitted]
      rw [if_pos hs]
      rw [find_segment, if_pos hs]
    · rw [find_segment, if_neg hs] at h
      simp only [setCommitted]
      rw [if_neg hs]
      rw [find_segment, if_neg hs]
      exact ih h

theorem setCommitted_length (now : ℤ) (segs : List Segment) (sid : String) :
    (setCommitted now segs sid).length = segs.length := by
  induction segs with
  | nil => rfl
  | cons s rest ih =>
    simp only [setCommitted]
    by_cases hs : s.segment_id = sid
    · rw [if_pos hs]; simp
    · rw [if_neg hs]; simp [ih]

theorem commitSegmentList_length (now : ℤ) (segs : List Segment) (sid : String) :
    (commitSegmentList now segs sid).length = segs.length := by
  induction segs with
  | nil => rfl
  | cons s rest ih =>
    simp only [commitSegmentList]
    by_cases hs : s.segment_id = sid ∧ s.status = SegmentStatus.FINAL
    · rw [if_pos hs]; simp
    · rw [if_neg hs]; simp [ih]

theorem updateSegmentList_length (segs : List Segment) (ns : Segment) :
    (updateSegmentList segs ns).length = segs.length := by
  induction segs with
  | nil => rfl
  | cons s rest ih =>
    simp only [updateSegmentList]
    by_cases hs : s.segment_id = ns.segment_id
    · rw [if_pos hs]
      by_cases hr : ns.revision > s.revision
      · rw [if_pos hr]; simp
      · rw [if_neg hr]
    · rw [if_neg hs]; simp [ih]

theorem minCreated_isSome (segs : List Segment) (h : segs ≠ []) :
    ∃ o, minCreated segs = some o := by
  cases segs with
  | nil => exact absurd rfl h
  | cons s rest =>
    rw [minCreated]
    cases hr : minCreated rest with
    | none => exact ⟨s, rfl⟩
    | some m =>
      dsimp only
      by_cases hle : s.created_at ≤ m.created_at
      · rw [if_pos hle]; exact ⟨s, rfl⟩
      · rw [if_neg hle]; exact ⟨m, rfl⟩

theorem minCreated_mem (segs : List Segment) (o : Segment)
    (h : minCreated segs = some o) : o ∈ segs := by
  induction segs with
  | nil => simp [minCreated] at h
  | cons s rest ih =>
    rw [minCreated] at h
    cases hr : minCreated rest with
    | none =>
      rw [hr] at h
      cases h
      simp
    | some m =>
      rw [hr] at h
      dsimp only at h
      by_cases hle : s.created_at ≤ m.created_at
      · rw [if_pos hle] at h
        cases h
        simp
      · rw [if_neg hle] at h
        cases h
        exact List.mem_cons_of_mem _ (ih hr)

theorem removeFirstMin_length (m : ℤ) (segs : List Segment)
    (h : ∃ s ∈ segs, s.created_at = m) :
    (removeFirstMin m segs).length + 1 = segs.length := by
  induction segs with
  | nil => simp at h
  | cons s rest ih =>
    simp only [removeFirstMin]
    by_cases hs : s.created_at = m
    · rw [if_pos hs]; simp
    · rw [if_neg hs]
      obtain ⟨w, hw, hwm⟩ := h
      rcases List.mem_cons.mp hw with rfl | hwrest
      · exact absurd hwm hs
      · simp only [List.length_cons]
        rw [← ih ⟨w, hwrest, hwm⟩]

theorem enforceFuel_length (maxSegs : Nat) (fuel : Nat) :
    ∀ (segs : List Segment) (cache : List (String × List Char))
      (ts : List (String × ℤ)), segs.length ≤ maxSegs + fuel →
      (enforceFuel maxSegs fuel (segs, cache, ts)).1.length ≤ maxSegs := by
  induction fuel with
  | zero =>
    intro segs cache ts h
    simpa [enforceFuel] using h
  | succ n ih =>
    intro segs cache ts h
    rw [enforceFuel]
    by_cases hle : segs.length ≤ maxSegs
    · rw [if_pos hle]
      exact hle
    · rw [if_neg hle]
      have hne : segs ≠ [] := by
        intro hnil
        rw [hnil] at hle
        exact hle (by simp)
      obtain ⟨o, ho⟩ := minCreated_isSome segs hne
      rw [ho]
      have hmem := minCreated_mem segs o ho
      have hlen := removeFirstMin_length o.created_at segs ⟨o, hmem, rfl⟩
      exact ih _ _ _ (by omega)

theorem enforceLimits_length (maxSegs : Nat) (segs : List Segment)
    (cache : List (String × List Char)) (ts : List (String × ℤ)) :
    (enforceLimits maxSegs segs cache ts).1.length ≤ maxSegs := by
  unfold enforceLimits
  exact enforceFuel_length maxSegs segs.length segs cache ts (by omega)

theorem handleSegmentTail_length (cfg : Settings) (st : AggState) (sid : String)
    (isFinal : Bool) (now : ℤ) :
    (handleSegmentTail cfg st sid isFinal now).segments.length =
      st.segments.length := by
  unfold handleSegmentTail
  cases isFinal with
  | false => rfl
  | true =>
    simp only [if_true]
    by_cases hc : (should_commit_segment cfg.commit_delay_seconds st.commitTimestamps
        sid SegmentStatus.FINAL now).1 = true
    · rw [if_pos hc]
      exact commitSegmentList_length now st.segments sid
    · rw [if_neg hc]

/-- The common behaviour of `_handle_segment_event` on an id the aggregator
has never seen (no stored segment, no commit timestamp) while the window is
not full: a fresh revision-1 segment is stored with `is_english` as computed
by `_is_english`; it ends PARTIAL for a PARTIAL event, and — because the
commit-delay check succeeds on its very first invocation — COMMITTED for a
FINAL event. -/
theorem handle_new_id (cfg : Settings) (st : AggState) (e : StreamingEvent)
    (now : ℤ) (sid : String)
    (hid : e.segment_id = some sid)
    (hfind : find_segment st.segments sid = none)
    (hts : lookupKey st.commitTimestamps sid = none)
    (hlen : st.segments.length < cfg.max_unconsolidated_segments) :
    ∃ s', find_segment (handle_segment_event cfg st e now).segments sid = some s' ∧
      s'.revision = 1 ∧
      s'.is_english = is_english_of cfg e.language e.language_prob ∧
      (e.event_type ≠ EventType.FINAL → s'.status = SegmentStatus.PARTIAL) ∧
      (e.event_type = EventType.FINAL → s'.status = SegmentStatus.COMMITTED) := by
  have hpre : ∀ s ∈ st.segments, s.segment_id ≠ sid :=
    (find_segment_eq_none_iff st.segments sid).mp hfind
  simp only [handle_segment_event, hid, hfind]
  set seg : Segment :=
    { segment_id := sid
      start_time := pyOrInt e.start_time 0
      end_time := pyOrInt e.end_time 0
      text := normalize_text (e.text.getD [])
      status := if decide (e.event_type = EventType.FINAL) = true then
          SegmentStatus.FINAL
        else SegmentStatus.PARTIAL
      confidence := none
      revision := 1
      source_client_uid := e.client_uid
      created_at := now
      updated_at := now
      language := e.language
      is_english := is_english_of cfg e.language e.language_prob
      text_hash := some (pyLower (normalize_text (normalize_text (e.text.getD [])))) }
    with hseg
  have hlen2 : (st.segments ++ [seg]).length ≤ cfg.max_unconsolidated_segments := by
    simp only [List.length_append, List.length_cons, List.length_nil]
    omega
  rw [enforceLimits_of_le _ _ _ _ hlen2]
  by_cases hf : e.event_type = EventType.FINAL
  · have hdec : decide (e.event_type = EventType.FINAL) = true := decide_eq_true hf
    have hstat : seg.status = SegmentStatus.FINAL := by
      rw [hseg]
      simp only [hdec, if_true]
    simp only [handleSegmentTail, hdec, if_true]
    rw [should_commit_segment_first _ _ _ _ hts]
    rw [if_pos (show ((true, updMap st.commitTimestamps sid now).1 = true) from rfl)]
    dsimp only
    rw [commitSegmentList_append now st.segments seg sid hpre (by rw [hseg]) hstat]
    refine ⟨_, find_segment_append_last st.segments _ sid hpre (by rw [hseg]), ?_, ?_, ?_, ?_⟩
    · rfl
    · rfl
    · intro hne
      exact absurd hf hne
    · intro _
      rfl
  · have hnf : decide (e.event_type = EventType.FINAL) = false := decide_eq_false hf
    simp only [handleSegmentTail, hnf, Bool.false_eq_true, if_false]
    refine ⟨seg, find_segment_append_last st.segments seg sid hpre (by rw [hseg]), ?_, ?_, ?_, ?_⟩
    · rfl
    · rfl
    · intro _
      rw [hseg]
      simp only [hnf, Bool.false_eq_true, if_false]
    · intro hf2
      exact absurd hf2 hf



/-- C1 counterexample: the commit-delay check returns true on its very first
invocation for a segment id (recording the timestamp), and consequently a
fresh FINAL event is COMMITTED on its first sighting — the claim says the
first invocation returns false and the first FINAL never commits.
(Times are in milliseconds; the default delay 2.0 s is 2000.) -/
theorem c1_counterexample :
    (should_commit_segment 2000 [] "9" SegmentStatus.FINAL 0).1 = true ∧
      (handle_segment_event defaultSettings AggState.init c1_event 0).segments.map
        Segment.status = [SegmentStatus.COMMITTED] := by
  constructor
  · rfl
  · decide

/-- C1 amended: the first FINAL observation for s records t0 and the check
returns true on that same invocation, so a fresh FINAL segment is COMMITTED
on its first sighting; once a timestamp t0 is recorded, a later check
succeeds iff at least `commit_delay_seconds` elapsed since t0 (re-recording
the timestamp whenever it succeeds). -/
theorem c1_amended_commit_check :
    (∀ (delay : ℤ) (m : List (String × ℤ)) (sid : String) (now : ℤ),
        lookupKey m sid = none →
        should_commit_segment delay m sid SegmentStatus.FINAL now =
          (true, updMap m sid now)) ∧
      (∀ (delay : ℤ) (m : List (String × ℤ)) (sid : String) (now t0 : ℤ),
        lookupKey m sid = some t0 →
        ((should_commit_segment delay m sid SegmentStatus.FINAL now).1 = true ↔
          delay ≤ now - t0)) ∧
      (∀ (cfg : Settings) (st : AggState) (e : StreamingEvent) (now : ℤ)
          (sid : String),
        e.segment_id = some sid →
        find_segment st.segments sid = none →
        lookupKey st.commitTimestamps sid = none →
        st.segments.length < cfg.max_unconsolidated_segments →
        e.event_type = EventType.FINAL →
        ∃ s', find_segment (handle_segment_event cfg st e now).segments sid = some s' ∧
          s'.status = SegmentStatus.COMMITTED) := by
  refine ⟨should_commit_segment_first, should_commit_segment_again, ?_⟩
  intro cfg st e now sid hid hfind hts hlen hf
  obtain ⟨s', h1, _, _, _, h5⟩ := handle_new_id cfg st e now sid hid hfind hts hlen
  exact ⟨s', h1, h5 hf⟩

/-- Witness for `c1_amended_commit_check`: a first check at t = 0 succeeds
and records the timestamp; with t0 = 0 recorded, a check at t = 2500 ms
succeeds because 2000 ≤ 2500. -/
theorem c1_amended_commit_check_witness :
    should_commit_segment 2000 [] "9" SegmentStatus.FINAL 0 =
        (true, updMap [] "9" 0) ∧
      ((should_commit_segment 2000 [("9", 0)] "9" SegmentStatus.FINAL 2500).1 = true ↔
        (2000 : ℤ) ≤ 2500 - 0) :=
  ⟨c1_amended_commit_check.1 2000 [] "9" 0 rfl,
    c1_amended_commit_check.2.1 2000 [("9", 0)] "9" 2500 0 rfl⟩

/-- C2 counterexample: after the first FINAL for id 1 the segment is
COMMITTED; a later PARTIAL for id 1 carrying different text replaces it with
a PARTIAL segment — statuses do move backwards. -/
theorem c2_counterexample :
    (find_segment c2_state1.segments "1").map Segment.status =
        some SegmentStatus.COMMITTED ∧
      (find_segment c2_state2.segments "1").map Segment.status =
        some SegmentStatus.PARTIAL := by
  constructor
  · decide
  · decide

/-- C2 amended: the status of an existing segment only moves forward along
PARTIAL → FINAL → COMMITTED when the arriving event carries the segment's
cached normalized text; an event with different text rebuilds the segment
with status PARTIAL or FINAL according to the event type, which can move a
COMMITTED segment backwards. -/
theorem c2_amended_forward_on_same_text (cfg : Settings) (st : AggState)
    (e : StreamingEvent) (now : ℤ) (sid : String) (ex : Segment)
    (hid : e.segment_id = some sid)
    (hfind : find_segment st.segments sid = some ex)
    (htext : normalize_text (e.text.getD []) = (lookupKey st.textCache sid).getD []) :
    ∃ r, find_segment (handle_segment_event cfg st e now).segments sid = some r ∧
      statusRank ex.status ≤ statusRank r.status := by
  simp only [handle_segment_event, hid]
  rw [hfind]
  dsimp only
  rw [if_pos htext]
  by_cases hc : decide (e.event_type = EventType.FINAL) = true ∧
      ex.status ≠ SegmentStatus.COMMITTED
  · rw [if_pos hc]
    by_cases hr : (should_commit_segment cfg.commit_delay_seconds st.commitTimestamps
        sid SegmentStatus.FINAL now).1 = true
    · rw [if_pos hr]
      dsimp only
      refine ⟨_, setCommitted_find now st.segments sid ex hfind, ?_⟩
      cases ex.status <;> simp [statusRank]
    · rw [if_neg hr]
      exact ⟨ex, hfind, le_refl _⟩
  · rw [if_neg hc]
    exact ⟨ex, hfind, le_refl _⟩

/-- Witness for `c2_amended_forward_on_same_text`: an identical-text FINAL
for an already committed segment leaves its status at COMMITTED. -/
theorem c2_amended_forward_witness :
    ∃ r, find_segment (handle_segment_event defaultSettings c2_witness_state
        c2_witness_event 100).segments "1" = some r ∧
      statusRank (mkCommitted "1" "alpha" 0).status ≤ statusRank r.status :=
  c2_amended_forward_on_same_text defaultSettings c2_witness_state c2_witness_event
    100 "1" (mkCommitted "1" "alpha" 0) rfl (by decide) (by decide)

/-- C9: processing any segment event keeps the unconsolidated window within
`max_unconsolidated_segments`, and whenever the bound is exceeded the
enforcement loop evicts the segment with the smallest `created_at`
(repeatedly, one per iteration, until the bound holds). -/
theorem c9_window_bound (cfg : Settings) (st : AggState) (e : StreamingEvent)
    (now : ℤ) (h : st.segments.length ≤ cfg.max_unconsolidated_segments) :
    (handle_segment_event cfg st e now).segments.length ≤
        cfg.max_unconsolidated_segments ∧
      (∀ (maxSegs : Nat) (segs : List Segment) (cache : List (String × List Char))
          (ts : List (String × ℤ)), maxSegs < segs.length →
        ∃ o, minCreated segs = some o ∧
          enforceLimits maxSegs segs cache ts =
            enforceLimits maxSegs (removeFirstMin o.created_at segs)
              (delKey cache o.segment_id) (delKey ts o.segment_id)) := by
  constructor
  · cases hid : e.segment_id with
    | none => simpa [handle_segment_event, hid] using h
    | some sid =>
      simp only [handle_segment_event, hid]
      cases hfind : find_segment st.segments sid with
      | some ex =>
        dsimp only
        by_cases htext : normalize_text (e.text.getD []) =
            (lookupKey st.textCache sid).getD []
        · rw [if_pos htext]
          by_cases hc : decide (e.event_type = EventType.FINAL) = true ∧
              ex.status ≠ SegmentStatus.COMMITTED
          · rw [if_pos hc]
            by_cases hr : (should_commit_segment cfg.commit_delay_seconds
                st.commitTimestamps sid SegmentStatus.FINAL now).1 = true
            · rw [if_pos hr]
              dsimp only
              rw [setCommitted_length]
              exact h
            · rw [if_neg hr]
              exact h
          · rw [if_neg hc]
            exact h
        · rw [if_neg htext]
          rw [handleSegmentTail_length]
          exact enforceLimits_length _ _ _ _
      | none =>
        dsimp only
        rw [handleSegmentTail_length]
        exact enforceLimits_length _ _ _ _
  · intro maxSegs segs cache ts hlt
    have hne : segs ≠ [] := by
      intro hnil
      rw [hnil] at hlt
      simp at hlt
    obtain ⟨o, ho⟩ := minCreated_isSome segs hne
    refine ⟨o, ho, ?_⟩
    have hmem := minCreated_mem segs o ho
    have hlen := removeFirstMin_length o.created_at segs ⟨o, hmem, rfl⟩
    unfold enforceLimits
    obtain ⟨n, hn⟩ : ∃ n, segs.length = n + 1 :=
      ⟨(removeFirstMin o.created_at segs).length, hlen.symm⟩
    rw [hn, enforceFuel]
    rw [if_neg (by omega), ho]
    have hn2 : (removeFirstMin o.created_at segs).length = n := by omega
    rw [hn2]

/-- Witness for `c9_window_bound` at the empty initial state. -/
theorem c9_window_bound_witness :
    (handle_segment_event defaultSettings AggState.init c9_event 0).segments.length ≤
        defaultSettings.max_unconsolidated_segments ∧
      (∀ (maxSegs : Nat) (segs : List Segment) (cache : List (String × List Char))
          (ts : List (String × ℤ)), maxSegs < segs.length →
        ∃ o, minCreated segs = some o ∧
          enforceLimits maxSegs segs cache ts =
            enforceLimits maxSegs (removeFirstMin o.created_at segs)
              (delKey cache o.segment_id) (delKey ts o.segment_id)) :=
  c9_window_bound defaultSettings AggState.init c9_event 0 (by decide)

/-- C10: with `enforce_english` on, `_is_english` returns true when the event
has no language, and also when a non-English language arrives without a
confidence; it returns false exactly when a non-English language arrives
together with a confidence of at least `min_english_confidence`
(thousandths; the default 0.8 is 800).  A fresh segment stores exactly this
value in `is_english`. -/
theorem c10_language_gate (cfg : Settings) (lang : Option (List Char))
    (prob : Option ℤ) (hcfg : cfg.enforce_english = true) :
    (lang = none → is_english_of cfg lang prob = true) ∧
      (∀ l, lang = some l → prob = none → is_english_of cfg lang prob = true) ∧
      (∀ l p, lang = some l → prob = some p →
        (is_english_of cfg lang prob = false ↔
          (¬(pyLower l = "en".data ∨ pyLower l = "english".data) ∧
            cfg.min_english_confidence ≤ p))) ∧
      (∀ (st : AggState) (e : StreamingEvent) (now : ℤ) (sid : String),
        e.segment_id = some sid →
        find_segment st.segments sid = none →
        lookupKey st.commitTimestamps sid = none →
        st.segments.length < cfg.max_unconsolidated_segments →
        ∃ s', find_segment (handle_segment_event cfg st e now).segments sid = some s' ∧
          s'.is_english = is_english_of cfg e.language e.language_prob) := by
  refine ⟨?_, ?_, ?_, ?_⟩
  · intro hnone
    subst hnone
    simp [is_english_of, hcfg]
  · intro l hl hp
    subst hl
    subst hp
    simp [is_english_of, hcfg]
  · intro l p hl hp
    subst hl
    subst hp
    simp only [is_english_of, hcfg]
    rw [if_neg (by simp)]
    dsimp only
    by_cases hcond : (decide (pyLower l = "en".data ∨ pyLower l = "english".data)
        = false ∧ cfg.min_english_confidence ≤ p)
    · rw [if_pos hcond]
      obtain ⟨hd, hle⟩ := hcond
      exact ⟨fun _ => ⟨of_decide_eq_false hd, hle⟩, fun _ => rfl⟩
    · rw [if_neg hcond]
      constructor
      · intro hc
        exact absurd hc (by simp)
      · intro ⟨hne, hle⟩
        exact absurd ⟨decide_eq_false hne, hle⟩ hcond
  · intro st e now sid hid hfind hts hlen
    obtain ⟨s', h1, _, h3, _, _⟩ := handle_new_id cfg st e now sid hid hfind hts hlen
    exact ⟨s', h1, h3⟩

/-- Witness for `c10_language_gate`: a French-language event with no
confidence value at the default settings. -/
theorem c10_language_gate_witness :
    ((some "fr".data : Option (List Char)) = none →
        is_english_of defaultSettings (some "fr".data) none = true) ∧
      (∀ l, (some "fr".data : Option (List Char)) = some l → (none : Option ℤ) = none →
        is_english_of defaultSettings (some "fr".data) none = true) ∧
      (∀ l p, (some "fr".data : Option (List Char)) = some l → (none : Option ℤ) = some p →
        (is_english_of defaultSettings (some "fr".data) none = false ↔
          (¬(pyLower l = "en".data ∨ pyLower l = "english".data) ∧
            defaultSettings.min_english_confidence ≤ p))) ∧
      (∀ (st : AggState) (e : StreamingEvent) (now : ℤ) (sid : String),
        e.segment_id = some sid →
        find_segment st.segments sid = none →
        lookupKey st.commitTimestamps sid = none →
        st.segments.length < defaultSettings.max_unconsolidated_segments →
        ∃ s', find_segment (handle_segment_event defaultSettings st e now).segments sid
            = some s' ∧
          s'.is_english = is_english_of defaultSettings e.language e.language_prob) :=
  c10_language_gate defaultSettings (some "fr".data) none rfl

/-- C4 counterexample: with consolidated text "the quick brown fox", a newly
committed segment "brown fox jumps over" does NOT produce
"the quick brown fox jumps over" — the word-overlap search compares the last
`k` words of both strings, finds no match, and appends the whole segment. -/
theorem c4_counterexample :
    (update_from_segments c4_before [c4_segment]).text ≠
      "the quick brown fox jumps over".data := by
  decide

/-- C4 amended: consolidating committed segment "brown fox jumps over" into
"the quick brown fox" yields "the quick brown fox brown fox jumps over"
(nothing is trimmed) and the revision increments by exactly 1. -/
theorem c4_amended_eval :
    (update_from_segments c4_before [c4_segment]).text =
        "the quick brown fox brown fox jumps over".data ∧
      (update_from_segments c4_before [c4_segment]).revision = c4_before.revision + 1 := by
  constructor
  · decide
  · decide

/-- C3 counterexample: a committed segment "hello world extra" against
consolidated text "hello world" passes the duplicate filters (overlap ratio
2/3 ≤ 0.8) but contributes an empty suffix, so the text stays "hello world"
while the revision still increments — refuting "revision increases iff text
changes". -/
theorem c3_counterexample :
    (update_from_segments c3_before [c3_segment]).text = c3_before.text ∧
      (update_from_segments c3_before [c3_segment]).revision = c3_before.revision + 1 := by
  constructor
  · decide
  · decide

/-- C3 amended: a changed text forces `revision + 1`, and a run changes the
revision by at most one — but the converse fails: the revision increments
whenever some committed segment passes the duplicate filters, even when every
appended suffix is empty and the text is unchanged. -/
theorem c3_amended_revision (c : Consolidated) (segs : List Segment) :
    ((update_from_segments c segs).text ≠ c.text →
        (update_from_segments c segs).revision = c.revision + 1) ∧
      ((update_from_segments c segs).revision = c.revision ∨
        (update_from_segments c segs).revision = c.revision + 1) := by
  simp only [update_from_segments]
  by_cases h1 : List.filter (fun s => decide (s.status = SegmentStatus.COMMITTED)) segs = []
  · rw [if_pos h1]
    exact ⟨fun h => absurd rfl h, Or.inl rfl⟩
  · rw [if_neg h1]
    by_cases h2 : (selectNew c.text
        (sortSegs (List.filter (fun s => decide (s.status = SegmentStatus.COMMITTED)) segs))
        c.committed_hashes).1 = []
    · rw [if_pos h2]
      exact ⟨fun h => absurd rfl h, Or.inl rfl⟩
    · rw [if_neg h2]
      exact ⟨fun _ => rfl, Or.inr rfl⟩

/-- Witness for `c3_amended_revision` at a run that does change the text. -/
theorem c3_amended_revision_witness :
    (update_from_segments Consolidated.init [c3_witness_segment]).revision =
      Consolidated.init.revision + 1 :=
  (c3_amended_revision Consolidated.init [c3_witness_segment]).1 (by decide)

/-- C5: consolidation is append-only.  For any committed-segment list, a
consolidation run maps a stripped consolidated text to an extension of
itself: the old text is a prefix of the new text, and the new text is again
stripped (so the hypothesis holds at every reachable state, starting from
the empty initial text). -/
theorem c5_append_only (c : Consolidated) (segs : List Segment)
    (h : pyStrip c.text = c.text) :
    c.text <+: (update_from_segments c segs).text ∧
      pyStrip (update_from_segments c segs).text =
        (update_from_segments c segs).text := by
  simp only [update_from_segments]
  by_cases h1 : List.filter (fun s => decide (s.status = SegmentStatus.COMMITTED)) segs = []
  · rw [if_pos h1]
    exact ⟨List.prefix_refl _, h⟩
  · rw [if_neg h1]
    by_cases h2 : (selectNew c.text
        (sortSegs (List.filter (fun s => decide (s.status = SegmentStatus.COMMITTED)) segs))
        c.committed_hashes).1 = []
    · rw [if_pos h2]
      exact ⟨List.prefix_refl _, h⟩
    · rw [if_neg h2]
      obtain ⟨hp, hstr⟩ := appendNew_extends
        (selectNew c.text
          (sortSegs (List.filter (fun s => decide (s.status = SegmentStatus.COMMITTED)) segs))
          c.committed_hashes).1 c.text h
      refine ⟨?_, pyStrip_idem _⟩
      rw [hstr]
      exact hp

/-- Witness for `c5_append_only`: extending "we started here" by a committed
segment with fresh words keeps the old text as a prefix. -/
theorem c5_append_only_witness :
    c5_before.text <+: (update_from_segments c5_before [c5_segment]).text ∧
      pyStrip (update_from_segments c5_before [c5_segment]).text =
        (update_from_segments c5_before [c5_segment]).text :=
  c5_append_only c5_before [c5_segment] (by decide)

/-- C6 counterexample: the text "show" contains the marker "how" only inside a
longer word; the claim says it is not interrogative, but the code's substring
test classifies it as interrogative. -/
theorem c6_counterexample :
    detect_question_type "show".data = some "interrogative".data ∧
      spec_is_interrogative "show".data = false := by
  constructor
  · decide
  · decide

/-- C6 amended: the code classifies text as interrogative iff its lowercased,
stripped form contains "?" or one of the eight question words as a plain
substring (whole-word boundaries are not respected). -/
theorem c6_amended_substring (t : List Char) :
    detect_question_type t = some "interrogative".data ↔
      (isSubOf "?".data (pyStrip (pyLower t)) = true ∨
        ∃ m ∈ questionWords, isSubOf m (pyStrip (pyLower t)) = true) := by
  simp only [detect_question_type]
  rw [show explicitMarkers = "?".data :: questionWords from rfl, List.any_cons]
  by_cases h : (isSubOf "?".data (pyStrip (pyLower t)) ||
      questionWords.any fun m => isSubOf m (pyStrip (pyLower t))) = true
  · rw [if_pos h]
    constructor
    · intro _
      have h2 : isSubOf "?".data (pyStrip (pyLower t)) = true ∨
          (questionWords.any fun m => isSubOf m (pyStrip (pyLower t))) = true := by
        simpa using h
      rcases h2 with hq | hany
      · exact Or.inl hq
      · obtain ⟨m, hm, hs⟩ := List.any_eq_true.mp hany
        exact Or.inr ⟨m, hm, hs⟩
    · intro _
      rfl
  · rw [if_neg h]
    constructor
    · intro hcontr
      split at hcontr
      · exact absurd hcontr (by decide)
      · exact Option.noConfusion hcontr
    · intro hcond
      exfalso
      rcases hcond with hq | ⟨m, hm, hs⟩
      · exact h (by simp [hq])
      · have hany : (questionWords.any fun m => isSubOf m (pyStrip (pyLower t))) = true :=
          List.any_eq_true.mpr ⟨m, hm, hs⟩
        exact h (by simp [hany])

/-- C7 counterexample: `start()` in state ERROR is rejected (returns False
without transitioning), contradicting "start() succeeds iff STOPPED or ERROR". -/
theorem c7_counterexample :
    pipeline_start_transition PipelineState.ERROR = none := by
  decide

/-- C7 amended: `start()` succeeds (moves to STARTING) iff the state is
exactly STOPPED; a start attempt from ERROR is rejected. -/
theorem c7_amended_guard (s : PipelineState) :
    pipeline_start_transition s = some PipelineState.STARTING ↔
      s = PipelineState.STOPPED := by
  cases s <;> simp [pipeline_start_transition]

/-- C8 counterexample: at attempt 1 with jitter draw u = 0.8 the code sleeps
min(1·2⁰ + 1·2⁰·0.8, 30) = 1.8 s, not the claimed min(1·2¹·0.8, 30) = 1.6 s. -/
theorem c8_counterexample :
    reconnect_delay 1 (4 / 5) ≠
      min (base_reconnect_delay * 2 ^ 1 * (4 / 5)) 30 := by
  simp only [reconnect_delay, base_reconnect_delay]
  rw [min_eq_left (by norm_num), min_eq_left (by norm_num)]
  norm_num

/-- C8 amended: for every attempt n (1 ≤ n ≤ 10) and jitter draw
u ∈ [0.8, 1.2] (given here as t thousandths, u = t/1000), the backoff delay
equals min(base · 2^(n-1) · (1 + u), 30): the jitter is added to the base
delay (so the factor is 1 + u, on the exponent n − 1), clamped at 30 s. -/
theorem c8_amended_delay (n : Nat) (t : ℤ) (h1 : 1 ≤ n)
    (h2 : n ≤ max_reconnect_attempts) (h3 : 800 ≤ t) (h4 : t ≤ 1200) :
    reconnect_delay n ((t : ℚ) / 1000) =
      min (base_reconnect_delay * 2 ^ (n - 1) * (1 + (t : ℚ) / 1000)) 30 := by
  simp only [reconnect_delay]
  have h : base_reconnect_delay * 2 ^ (n - 1) +
      base_reconnect_delay * 2 ^ (n - 1) * ((t : ℚ) / 1000) =
      base_reconnect_delay * 2 ^ (n - 1) * (1 + (t : ℚ) / 1000) := by
    ring
  rw [h]

/-- Witness for `c8_amended_delay` at n = 1, t = 1000 (u = 1). -/
theorem c8_amended_delay_witness :
    reconnect_delay 1 (((1000 : ℤ) : ℚ) / 1000) =
      min (base_reconnect_delay * 2 ^ (1 - 1) * (1 + ((1000 : ℤ) : ℚ) / 1000)) 30 :=
  c8_amended_delay 1 1000 (by decide) (by decide) (by decide) (by decide)

example : pyStrip "  hello world  ".data = "hello world".data := by decide
example : normalize_text "  Hello ,  world  !".data = "Hello, world!".data := by decide
example : pySplit " the quick  brown ".data = ["the".data, "quick".data, "brown".data] := by
  decide
example : joinSpace ["a".data, "b".data] = "a b".data := by decide
example : isSubOf "how".data "show".data = true := by decide
example : isSubOf "how".data "shop".data = false := by decide

end ClioWhisper
